import Mathlib

/-!
Verification of the Transcribe repository's aggregation / chunking /
normalization pipeline against its natural-language specification.

The Python sources are shallowly embedded: text is `List Char`, file
contents are `List Char`, the file system (for the frame-effect claims)
is a list of path names, and the external collaborators (ffmpeg, the
transcription API, pydub's `detect_nonsilent`) are function parameters.
Python's `\w`, `\s`, `.lower()`, `.upper()` are modelled on their ASCII
subset, which is the subset exercised by every string the scripts build.
All definitions use structural recursion so that concrete runs reduce
inside the kernel.
-/

/-- Python `\s` (ASCII subset): the whitespace class used by `str.strip`,
`str.split` and the `\s+` regex in `basic_cleaning`. -/
def isPySpace (c : Char) : Bool :=
  c == ' ' || c == '\t' || c == '\n' || c == '\r' || c == '\x0b' || c == '\x0c'

/-- Python `\w` (ASCII subset): word characters for `\b` boundaries. -/
def isWordChar (c : Char) : Bool :=
  c.isAlpha || c.isDigit || c == '_'

/-- Python `str.lstrip()` on a char list. -/
def lstripL (l : List Char) : List Char := l.dropWhile (fun c => isPySpace c)

/-- Python `str.strip()` on a char list. -/
def stripL (l : List Char) : List Char :=
  ((lstripL l).reverse.dropWhile (fun c => isPySpace c)).reverse

/-- Python `str.lower()` on a char list (ASCII). -/
def lowerL (l : List Char) : List Char := l.map Char.toLower

/-- Helper for `splitWs`: `cur` is the reversed current word. -/
def splitWsAux (cur : List Char) : List Char → List (List Char)
  | [] => if cur = [] then [] else [cur.reverse]
  | c :: t =>
    if isPySpace c then
      if cur = [] then splitWsAux [] t else cur.reverse :: splitWsAux [] t
    else splitWsAux (c :: cur) t

/-- Python `str.split()` with no argument: split on whitespace runs,
dropping empty fields.  Used for word counting and tokenisation. -/
def splitWs (l : List Char) : List (List Char) := splitWsAux [] l

/-- Python `" ".join(xs)` on char lists. -/
def joinSpace : List (List Char) → List Char
  | [] => []
  | [s] => s
  | s :: t => s ++ ' ' :: joinSpace t

/-- Python `"\n".join(xs)` on char lists. -/
def joinNl : List (List Char) → List Char
  | [] => []
  | [s] => s
  | s :: t => s ++ '\n' :: joinNl t

/-- Helper for `splitNl`: `cur` is the reversed current field. -/
def splitNlAux (cur : List Char) : List Char → List (List Char)
  | [] => [cur.reverse]
  | c :: t =>
    if c = '\n' then cur.reverse :: splitNlAux [] t else splitNlAux (c :: cur) t

/-- Python `s.split("\n")`: split on every newline, keeping empty fields
(`"".split("\n") == [""]`). -/
def splitNl (l : List Char) : List (List Char) := splitNlAux [] l

/-- `sub` is a (case-sensitive) prefix of `s`, as a Bool. -/
def prefixOfB : List Char → List Char → Bool
  | [], _ => true
  | _ :: _, [] => false
  | a :: s, b :: t => a == b && prefixOfB s t

/-- Python `sub in s`: substring occurrence, as a Bool. -/
def infixOfB (sub : List Char) : List Char → Bool
  | [] => prefixOfB sub []
  | c :: t => prefixOfB sub (c :: t) || infixOfB sub t

/-!  ## SubjectClassifier: `determine_subject` (transcribe_v2.1.py) -/

/-- The first-five-token window, lower-cased: `" ".join(words[:5]).lower()`. -/
def firstFiveWindow (words : List (List Char)) : List Char :=
  lowerL (joinSpace (words.take 5))

/-- The last-five-token window, lower-cased: `" ".join(words[-5:]).lower()`. -/
def lastFiveWindow (words : List (List Char)) : List Char :=
  lowerL (joinSpace (words.drop (words.length - 5)))

/-- `determine_subject(raw_text, keywords)` from transcribe_v2.1.py:
split on whitespace; empty token list returns `none`; otherwise return
`keyword.lower()` for the first keyword whose lower-cased form occurs as
a substring of the lower-cased first-five or last-five window. -/
def determine_subject (raw_text : List Char) (keywords : List (List Char)) :
    Option (List Char) :=
  let words := splitWs raw_text
  if words = [] then none
  else
    let first_five := firstFiveWindow words
    let last_five := lastFiveWindow words
    (keywords.find? fun k =>
      infixOfB (lowerL k) first_five || infixOfB (lowerL k) last_five).map lowerL

example : determine_subject "today we discussed ai safety models in depth".toList
    ["ai".toList, "biology".toList] = some "ai".toList := by decide

/-- A keyword matches the classifier's windows (with the code's
lower-casing of the keyword itself). -/
def keywordHits (words : List (List Char)) (k : List Char) : Bool :=
  infixOfB (lowerL k) (firstFiveWindow words) ||
    infixOfB (lowerL k) (lastFiveWindow words)

lemma find?_characterization (p : List Char → Bool) (kws : List (List Char))
    (k : List Char) :
    kws.find? p = some k ↔
      ∃ pre post, kws = pre ++ k :: post ∧ p k = true ∧
        ∀ k' ∈ pre, p k' = false := by
  induction kws with
  | nil => simp [List.find?]
  | cons a t ih =>
    rcases ha : p a with _ | _
    · rw [List.find?_cons_of_neg _ (by simp [ha]), ih]
      constructor
      · rintro ⟨pre, post, heq, hk, hpre⟩
        refine ⟨a :: pre, post, by simp [heq], hk, ?_⟩
        intro k' hk'
        rcases List.mem_cons.1 hk' with rfl | h
        · exact ha
        · exact hpre _ h
      · rintro ⟨pre, post, heq, hk, hpre⟩
        cases pre with
        | nil =>
          have hak : a = k := by simpa using congrArg List.head? heq
          rw [hak, hk] at ha
          exact absurd ha (by simp)
        | cons b pre' =>
          have ht : t = pre' ++ k :: post := by
            simpa using congrArg List.tail heq
          exact ⟨pre', post, ht, hk, fun k' h => hpre k' (by simp [h])⟩
    · rw [List.find?_cons_of_pos _ ha, Option.some_inj]
      constructor
      · rintro rfl
        exact ⟨[], t, rfl, ha, by simp⟩
      · rintro ⟨pre, post, heq, hk, hpre⟩
        cases pre with
        | nil => simpa using congrArg List.head? heq
        | cons b pre' =>
          have hb : a = b := by simpa using congrArg List.head? heq
          have hpb : p b = false := hpre b (by simp)
          rw [← hb, ha] at hpb
          exact absurd hpb (by simp)

/-- C9 counterexample: with caller keyword `"AI"` (upper-case), the
keyword does not occur as a substring of either lower-cased window, so
the claim as stated predicts `none`; the code nevertheless matches (it
lower-cases the keyword too) and returns `some "ai"`, which is also not
the caller's keyword. -/
theorem C9_counterexample :
    determine_subject "AI is great today friends".toList ["AI".toList]
        = some "ai".toList ∧
      "ai".toList ≠ "AI".toList ∧
      infixOfB "AI".toList
        (firstFiveWindow (splitWs "AI is great today friends".toList)) = false ∧
      infixOfB "AI".toList
        (lastFiveWindow (splitWs "AI is great today friends".toList)) = false := by
  decide

/-- C9 (amended): `determine_subject` lower-cases both the five-token
windows and each keyword before the substring test, returns the
lower-cased form of the first keyword (in caller order) that matches,
and returns `none` when the text has no tokens or no keyword matches. -/
theorem C9_determine_subject_amended (raw : List Char)
    (kws : List (List Char)) (r : List Char) :
    (splitWs raw = [] → determine_subject raw kws = none) ∧
    (splitWs raw ≠ [] →
      (determine_subject raw kws = some r ↔
        ∃ pre k post, kws = pre ++ k :: post ∧ r = lowerL k ∧
          keywordHits (splitWs raw) k = true ∧
          ∀ k' ∈ pre, keywordHits (splitWs raw) k' = false)) := by
  constructor
  · intro h
    simp [determine_subject, h]
  · intro h
    have : determine_subject raw kws =
        (kws.find? fun k => keywordHits (splitWs raw) k).map lowerL := by
      simp [determine_subject, if_neg h, keywordHits, firstFiveWindow,
        lastFiveWindow]
    rw [this, Option.map_eq_some']
    constructor
    · rintro ⟨k, hfind, hr⟩
      rcases (find?_characterization _ kws k).1 hfind with ⟨pre, post, heq, hk, hpre⟩
      exact ⟨pre, k, post, heq, hr.symm, hk, hpre⟩
    · rintro ⟨pre, k, post, heq, hr, hk, hpre⟩
      exact ⟨k, (find?_characterization _ kws k).2 ⟨pre, post, heq, hk, hpre⟩,
        hr.symm⟩

/-- Witness for `C9_determine_subject_amended` at a concrete input. -/
theorem C9_witness :
    determine_subject "today we discussed ai safety models in depth".toList
      ["ai".toList, "biology".toList] = some "ai".toList :=
  ((C9_determine_subject_amended
    "today we discussed ai safety models in depth".toList
    ["ai".toList, "biology".toList] "ai".toList).2 (by decide)).2
    ⟨[], "ai".toList, ["biology".toList], rfl, by decide, by decide, by simp⟩

/-!  ## SilenceChunker: `split_on_silence` (youtube.py)

`detect_nonsilent(chunk, min_silence_len, silence_thresh)` is an external
pydub collaborator; it is embedded as a function parameter `detect` from
a chunk to a list of `(segStart, segEnd)` non-silent intervals inside the
chunk (the two tuning parameters are folded into `detect`). -/

/-- `audio[s:e]` for a sample buffer. -/
def sliceL (audio : List Int) (s e : Nat) : List Int :=
  (audio.drop s).take (e - s)

/-- pydub's guarantee on `detect_nonsilent`: every reported non-silent
interval ends inside the chunk it was detected in, after at least one
sample. -/
def DetectValid (detect : List Int → List (Nat × Nat)) : Prop :=
  ∀ c p, p ∈ detect c → 0 < p.2 ∧ p.2 ≤ c.length

/-- The loop of `split_on_silence`, with the buffer indices it slices at.
`fuel` bounds the iteration count (the Python loop advances `start_time`
by at least one sample per iteration, so `audio.length` steps suffice). -/
def chunkBoundsAux (detect : List Int → List (Nat × Nat)) (audio : List Int)
    (chunk_length : Nat) : Nat → Nat → List (Nat × Nat)
  | 0, _ => []
  | fuel + 1, start_time =>
    if start_time < audio.length then
      let end0 := min (start_time + chunk_length) audio.length
      let end_time :=
        if end0 < audio.length then
          match (detect (sliceL audio start_time end0)).getLast? with
          | some p => start_time + p.2
          | none => end0
        else end0
      (start_time, end_time) :: chunkBoundsAux detect audio chunk_length fuel end_time
    else []

/-- The `(start_time, end_time)` pairs produced by `split_on_silence`. -/
def chunkBounds (detect : List Int → List (Nat × Nat)) (audio : List Int)
    (chunk_length : Nat) : List (Nat × Nat) :=
  chunkBoundsAux detect audio chunk_length audio.length 0

/-- `split_on_silence(audio_path, ...)` from youtube.py, returning the
chunk slices in order. -/
def split_on_silence (detect : List Int → List (Nat × Nat)) (audio : List Int)
    (chunk_length : Nat) : List (List Int) :=
  (chunkBounds detect audio chunk_length).map fun p => sliceL audio p.1 p.2

/-- `coversB s L bs`: the interval list `bs` tiles `[s, L)` exactly:
consecutive, non-overlapping, non-empty, starting at `s`, ending at `L`. -/
def coversB (s L : Nat) : List (Nat × Nat) → Bool
  | [] => s == L
  | (a, b) :: t => a == s && decide (s < b) && coversB b L t

lemma chunkBoundsAux_spec (detect : List Int → List (Nat × Nat))
    (audio : List Int) (D : Nat) (hvalid : DetectValid detect) (hD : 0 < D) :
    ∀ fuel start, audio.length - start ≤ fuel → start ≤ audio.length →
      coversB start audio.length (chunkBoundsAux detect audio D fuel start) = true ∧
      ∀ p ∈ chunkBoundsAux detect audio D fuel start, p.2 - p.1 ≤ D := by
  intro fuel
  induction fuel with
  | zero =>
    intro start h hle
    constructor
    · simp only [chunkBoundsAux, coversB, beq_iff_eq]
      omega
    · intro p hp
      simp [chunkBoundsAux] at hp
  | succ n ih =>
    intro start h hstart
    by_cases hs : start < audio.length
    · have hbranch :
        ∃ e, chunkBoundsAux detect audio D (n + 1) start =
            (start, e) :: chunkBoundsAux detect audio D n e ∧
          start < e ∧ e ≤ audio.length ∧ e - start ≤ D := by
        simp only [chunkBoundsAux, if_pos hs]
        set e0 := min (start + D) audio.length with he0
        have he0l : start < e0 := by omega
        have he0r : e0 ≤ audio.length := by omega
        have he0D : e0 - start ≤ D := by omega
        by_cases hclip : e0 < audio.length
        · simp only [if_pos hclip]
          cases hlast : (detect (sliceL audio start e0)).getLast? with
          | none => exact ⟨e0, rfl, he0l, he0r, he0D⟩
          | some p =>
            have hmem := List.mem_of_getLast?_eq_some hlast
            have hp := hvalid _ _ hmem
            have hlen : (sliceL audio start e0).length = e0 - start := by
              simp [sliceL]
              omega
            rw [hlen] at hp
            exact ⟨start + p.2, rfl, by omega, by omega, by omega⟩
        · simp only [if_neg hclip]
          exact ⟨e0, rfl, he0l, he0r, he0D⟩
      rcases hbranch with ⟨e, heq, hlt, hle, hD'⟩
      rw [heq]
      have hrec := ih e (by omega) hle
      constructor
      · simp only [coversB, Bool.and_eq_true, beq_iff_eq, decide_eq_true_eq]
        exact ⟨⟨trivial, hlt⟩, hrec.1⟩
      · intro p hp
        rcases List.mem_cons.1 hp with rfl | hmem
        · simpa using hD'
        · exact hrec.2 p hmem
    · constructor
      · simp only [chunkBoundsAux, if_neg hs, coversB, beq_iff_eq]
        omega
      · intro p hp
        simp [chunkBoundsAux, if_neg hs] at hp

lemma coversB_length_bound (D : Nat) :
    ∀ (bs : List (Nat × Nat)) (s L : Nat), coversB s L bs = true →
      (∀ p ∈ bs, p.2 - p.1 ≤ D) → L - s ≤ bs.length * D := by
  intro bs
  induction bs with
  | nil =>
    intro s L hc _
    simp only [coversB, beq_iff_eq] at hc
    simp [hc]
  | cons hd t ih =>
    intro s L hc hall
    obtain ⟨a, b⟩ := hd
    simp only [coversB, Bool.and_eq_true, beq_iff_eq, decide_eq_true_eq] at hc
    obtain ⟨⟨ha, hab⟩, hrest⟩ := hc
    have h1 := ih b L hrest (fun p hp => hall p (List.mem_cons_of_mem _ hp))
    have h2 : b - a ≤ D := hall (a, b) (List.mem_cons_self _ _)
    simp only [List.length_cons]
    subst ha
    calc L - a ≤ (b - a) + (L - b) := by omega
    _ ≤ D + t.length * D := by omega
    _ = (t.length + 1) * D := by ring

lemma coversB_join (audio : List Int) :
    ∀ (bs : List (Nat × Nat)) (s : Nat), coversB s audio.length bs = true →
      (bs.map fun p => sliceL audio p.1 p.2).flatten = audio.drop s := by
  intro bs
  induction bs with
  | nil =>
    intro s hc
    simp only [coversB, beq_iff_eq] at hc
    simp [List.drop_eq_nil_of_le, hc.le, hc]
  | cons hd t ih =>
    intro s hc
    obtain ⟨a, b⟩ := hd
    simp only [coversB, Bool.and_eq_true, beq_iff_eq, decide_eq_true_eq] at hc
    obtain ⟨⟨ha, hab⟩, hrest⟩ := hc
    subst ha
    have hjoin := ih b hrest
    simp only [List.map_cons, List.flatten_cons, hjoin]
    have : audio.drop b = (audio.drop a).drop (b - a) := by
      rw [List.drop_drop]
      congr 1
      omega
    rw [this, sliceL, List.take_append_drop]

lemma chunkBoundsAux_stop (detect : List Int → List (Nat × Nat))
    (audio : List Int) (D fuel start : Nat) (h : ¬ start < audio.length) :
    chunkBoundsAux detect audio D fuel start = [] := by
  cases fuel <;> simp [chunkBoundsAux, h]

/-- C2: for a non-empty buffer and positive max chunk length, and any
`detect_nonsilent` collaborator meeting pydub's interface guarantee, the
chunk intervals tile `[0, len(audio))` exactly (contiguous,
non-overlapping, in order), every chunk is at most `D` samples, there
are at least `ceil(L / D)` chunks, the chunks concatenate back to the
buffer, and a buffer no longer than `D` yields exactly one chunk equal
to the whole buffer. -/
theorem C2_split_on_silence_covers (detect : List Int → List (Nat × Nat))
    (audio : List Int) (D : Nat) (hvalid : DetectValid detect) (hD : 0 < D)
    (hne : audio ≠ []) :
    coversB 0 audio.length (chunkBounds detect audio D) = true ∧
    (∀ p ∈ chunkBounds detect audio D, p.2 - p.1 ≤ D) ∧
    (audio.length + D - 1) / D ≤ (chunkBounds detect audio D).length ∧
    (split_on_silence detect audio D).flatten = audio ∧
    (audio.length ≤ D → split_on_silence detect audio D = [audio]) := by
  have hmain := chunkBoundsAux_spec detect audio D hvalid hD audio.length 0
    (by omega) (by omega)
  obtain ⟨hcov, hsize⟩ := hmain
  refine ⟨hcov, hsize, ?_, ?_, ?_⟩
  · have h1 : audio.length - 0 ≤ (chunkBounds detect audio D).length * D :=
      coversB_length_bound D (chunkBounds detect audio D) 0 audio.length hcov hsize
    rw [Nat.div_le_iff_le_mul_add_pred hD, Nat.mul_comm D]
    omega
  · have := coversB_join audio (chunkBounds detect audio D) 0 hcov
    simpa [split_on_silence] using this
  · intro hLD
    have hone : chunkBounds detect audio D = [(0, audio.length)] := by
      unfold chunkBounds
      rcases hlen : audio.length with _ | n
      · exact absurd (List.eq_nil_of_length_eq_zero hlen) hne
      · show chunkBoundsAux detect audio D (n + 1) 0 = _
        rw [hlen] at hLD
        simp only [chunkBoundsAux, hlen, if_pos (Nat.succ_pos n), Nat.zero_add,
          Nat.min_eq_right hLD, Nat.lt_irrefl, if_neg (Nat.lt_irrefl (n + 1))]
        rw [if_neg not_false,
          chunkBoundsAux_stop detect audio D n (n + 1) (by omega)]
    simp [split_on_silence, hone, sliceL, List.take_of_length_le]

/-- Witness for `C2_split_on_silence_covers`: a 3-sample buffer with a
2-sample cap and a detector that reports no non-silent interval. -/
theorem C2_witness :
    coversB 0 ([0, 1, 2] : List Int).length
        (chunkBounds (fun _ => []) [0, 1, 2] 2) = true ∧
      (∀ p ∈ chunkBounds (fun _ => []) ([0, 1, 2] : List Int) 2,
        p.2 - p.1 ≤ 2) ∧
      (([0, 1, 2] : List Int).length + 2 - 1) / 2 ≤
        (chunkBounds (fun _ => []) ([0, 1, 2] : List Int) 2).length ∧
      (split_on_silence (fun _ => []) ([0, 1, 2] : List Int) 2).flatten
        = [0, 1, 2] ∧
      (([0, 1, 2] : List Int).length ≤ 2 →
        split_on_silence (fun _ => []) ([0, 1, 2] : List Int) 2 = [[0, 1, 2]]) :=
  C2_split_on_silence_covers (fun _ => []) [0, 1, 2] 2
    (fun c p hp => absurd hp (List.not_mem_nil p)) (by decide) (by decide)

/-!  ## TranscriptStitcher: the chunk loop of `main` (youtube.py)

`transcribe_chunk` returns `transcript.text` or `None` (it catches every
exception); the loop keeps a transcription only when it is truthy, i.e.
not `None` *and* not the empty string, and finally joins the kept
fragments with `" ".join`. -/

/-- The fragments accumulated by `for i, chunk in enumerate(chunks)`:
`if transcription: all_transcriptions.append(transcription)`. -/
def collectTranscriptions {α : Type} (transcribe : α → Option (List Char)) :
    List α → List (List Char)
  | [] => []
  | c :: t =>
    match transcribe c with
    | some s =>
      if s = [] then collectTranscriptions transcribe t
      else s :: collectTranscriptions transcribe t
    | none => collectTranscriptions transcribe t

/-- `final_transcription = " ".join(all_transcriptions)`. -/
def stitch {α : Type} (chunks : List α) (transcribe : α → Option (List Char)) :
    List Char :=
  joinSpace (collectTranscriptions transcribe chunks)

lemma collectTranscriptions_eq_filter {α : Type}
    (transcribe : α → Option (List Char)) (chunks : List α) :
    collectTranscriptions transcribe chunks =
      (chunks.filterMap transcribe).filter (fun s => !s.isEmpty) := by
  induction chunks with
  | nil => simp [collectTranscriptions]
  | cons c t ih =>
    cases h : transcribe c with
    | none => simp [collectTranscriptions, h, ih]
    | some s =>
      by_cases hs : s = []
      · simp [collectTranscriptions, h, hs, ih]
      · simp [collectTranscriptions, h, hs, ih, List.isEmpty_iff]

lemma joinSpace_eq_nil_iff (l : List (List Char)) (h : ∀ s ∈ l, s ≠ []) :
    joinSpace l = [] ↔ l = [] := by
  cases l with
  | nil => simp [joinSpace]
  | cons s t =>
    cases t with
    | nil =>
      simp only [joinSpace]
      exact ⟨fun hc => absurd hc (h s (by simp)), fun hc => by simp at hc⟩
    | cons b t' =>
      simp only [joinSpace]
      constructor
      · intro hc
        exact absurd (List.append_eq_nil.1 hc).2 (by simp)
      · intro hc
        simp at hc

lemma collectTranscriptions_nil_iff {α : Type}
    (transcribe : α → Option (List Char)) (chunks : List α) :
    collectTranscriptions transcribe chunks = [] ↔
      ∀ c ∈ chunks, transcribe c = none ∨ transcribe c = some [] := by
  induction chunks with
  | nil => simp [collectTranscriptions]
  | cons c t ih =>
    cases h : transcribe c with
    | none => simp [collectTranscriptions, h, ih]
    | some s =>
      by_cases hs : s = []
      · subst hs
        simp [collectTranscriptions, h, ih]
      · simp [collectTranscriptions, h, hs, ih]

/-- C3 counterexample: chunk 2's transcription succeeds with the empty
string.  The claim predicts the concatenation of all three successful
fragments (`"x  y"`, double space) and predicts a non-empty result when
some chunk succeeds; the code drops the truthy-test-failing empty
fragment (`"x y"`), and on a single successful-but-empty chunk returns
empty text although the chunk did not fail. -/
theorem C3_counterexample :
    (stitch [1, 2, 3]
        (fun n => if n = 1 then some "x".toList
          else if n = 2 then some [] else some "y".toList) = "x y".toList) ∧
      (joinSpace (List.filterMap
        (fun n => if n = 1 then some "x".toList
          else if n = 2 then some [] else some "y".toList) [1, 2, 3])
        = "x  y".toList) ∧
      "x y".toList ≠ "x  y".toList ∧
      stitch [0] (fun _ => some ([] : List Char)) = [] ∧
      (fun _ => some ([] : List Char)) 0 ≠ none := by
  decide

/-- C3 (amended): the stitched text joins, with a single separating
space, the successful fragments that are non-empty, in original chunk
order; no failure aborts the fold (it is total); and the result is empty
iff every chunk either failed or transcribed to the empty string. -/
theorem C3_stitch_amended {α : Type} (chunks : List α)
    (transcribe : α → Option (List Char)) :
    stitch chunks transcribe =
      joinSpace ((chunks.filterMap transcribe).filter (fun s => !s.isEmpty)) ∧
    (stitch chunks transcribe = [] ↔
      ∀ c ∈ chunks, transcribe c = none ∨ transcribe c = some []) := by
  constructor
  · rw [stitch, collectTranscriptions_eq_filter]
  · rw [stitch,
      joinSpace_eq_nil_iff _ (by
        intro s hs
        rw [collectTranscriptions_eq_filter] at hs
        have := List.of_mem_filter hs
        simpa [List.isEmpty_iff] using this)]
    exact collectTranscriptions_nil_iff transcribe chunks

/-- Witness for `C3_stitch_amended` at a concrete input. -/
theorem C3_witness :
    stitch [1, 2] (fun n => if n = 1 then some "a".toList else none)
      = "a".toList := by
  rw [(C3_stitch_amended [1, 2]
    (fun n => if n = 1 then some "a".toList else none)).1]
  decide

/-!  ## SizeGuard: the 25MB guard of `whisper_transcribe`
(transcribe_v2.1.py)

ffmpeg is an external collaborator: it is embedded as a function from
the fixed re-encoding parameters (`-ar 16000 -ac 1 -b:a 48k`) to the
size of the compressed output, or `none` when the encoder fails (which
`check=True` raises and the enclosing `except` absorbs). -/

/-- `MAX_FILE_SIZE = 25 * 1024 * 1024`. -/
def MAX_FILE_SIZE : Nat := 25 * 1024 * 1024

/-- The size-guard logic of `whisper_transcribe`: if the file exceeds
the limit, hand the (sample rate, channels, bitrate) = (16000, 1, 48k)
re-encode to the transcription step — with no re-check of its size. -/
def whisper_size_guard (file_size limit : Nat)
    (ffmpeg : Nat → Nat → Nat → Option Nat) : Except Unit Nat :=
  if file_size > limit then
    match ffmpeg 16000 1 48000 with
    | some compressed_size => Except.ok compressed_size
    | none => Except.error ()
  else Except.ok file_size

/-- Modelled from the spec's words for §4.2 `ensureUnderLimit` (for the
refinement comparison only): it additionally fails with
`CompressionError` when the re-encoded output still exceeds the limit. -/
def ensureUnderLimitSpec (file_size limit : Nat)
    (ffmpeg : Nat → Nat → Nat → Option Nat) : Except Unit Nat :=
  if file_size > limit then
    match ffmpeg 16000 1 48000 with
    | some compressed_size =>
      if compressed_size ≤ limit then Except.ok compressed_size
      else Except.error ()
    | none => Except.error ()
  else Except.ok file_size

/-- C7 counterexample: a 26MB input whose re-encode is still 26MB.  The
claim says this fails with `CompressionError`; the code passes the
oversize re-encoded bytes straight on. -/
theorem C7_counterexample :
    whisper_size_guard (26 * 1024 * 1024) MAX_FILE_SIZE
        (fun _ _ _ => some (26 * 1024 * 1024)) = Except.ok (26 * 1024 * 1024) ∧
      ensureUnderLimitSpec (26 * 1024 * 1024) MAX_FILE_SIZE
        (fun _ _ _ => some (26 * 1024 * 1024)) = Except.error () := by
  constructor
  · rfl
  · rfl

/-- C7 (amended): input at most the limit is returned unchanged; larger
input is re-encoded at 16 kHz mono 48 kbps and the re-encoded size is
returned whatever it is (no re-check against the limit); the guard
fails only when re-encoding itself fails. -/
theorem C7_size_guard_amended (file_size limit : Nat)
    (ffmpeg : Nat → Nat → Nat → Option Nat) :
    (file_size ≤ limit →
      whisper_size_guard file_size limit ffmpeg = Except.ok file_size) ∧
    (limit < file_size → ∀ s', ffmpeg 16000 1 48000 = some s' →
      whisper_size_guard file_size limit ffmpeg = Except.ok s') ∧
    (limit < file_size → ffmpeg 16000 1 48000 = none →
      whisper_size_guard file_size limit ffmpeg = Except.error ()) := by
  refine ⟨?_, ?_, ?_⟩
  · intro h
    simp [whisper_size_guard, Nat.not_lt.2 h]
  · intro h s' hf
    simp [whisper_size_guard, h, hf]
  · intro h hf
    simp [whisper_size_guard, h, hf]

/-- Witness for `C7_size_guard_amended` at a concrete input. -/
theorem C7_witness :
    whisper_size_guard 10 MAX_FILE_SIZE (fun _ _ _ => none) = Except.ok 10 :=
  (C7_size_guard_amended 10 MAX_FILE_SIZE (fun _ _ _ => none)).1 (by decide)

/-!  ## Frame effects: transient chunk files
(`transcribe_chunk` in youtube.py, `whisper_transcribe` in
transcribe_v2.1.py)

The file system is a list of present path names; export/ffmpeg create a
file, `os.remove` deletes every entry with that name.  External call
outcomes are parameters (`exportOk`, `compressOk`, `api`). -/

/-- `sub` is a suffix of `s`, as a Bool (Python `str.endswith`). -/
def suffixOfB (sub s : List Char) : Bool := prefixOfB sub.reverse s.reverse

/-- Python `s.replace(pat, rep)` (all non-overlapping occurrences, left
to right); `fuel` bounds the scan, `s.length` always suffices. -/
def replaceAllF (pat rep : List Char) : Nat → List Char → List Char
  | 0, s => s
  | _ + 1, [] => []
  | fuel + 1, c :: t =>
    if prefixOfB pat (c :: t) then
      rep ++ replaceAllF pat rep fuel (t.drop (pat.length - 1))
    else c :: replaceAllF pat rep fuel t

/-- `audio_file_path.replace(".wav", "_compressed.wav")`. -/
def compressedName (path : List Char) : List Char :=
  replaceAllF ".wav".toList "_compressed.wav".toList path.length path

/-- Mark `path` present (exporting overwrites, so no duplicates). -/
def fsCreate (fs : List (List Char)) (path : List Char) : List (List Char) :=
  if path ∈ fs then fs else path :: fs

/-- `os.remove(path)`. -/
def fsRemove (fs : List (List Char)) (path : List Char) : List (List Char) :=
  fs.filter (fun q => q ≠ path)

/-- `transcribe_chunk(chunk, chunk_path)` from youtube.py, as a state
transformer on the file system: export the chunk (may fail), call the
API (may fail), and in `finally` remove `chunk_path` if it exists. -/
def transcribe_chunk (fs : List (List Char)) (chunk_path : List Char)
    (exportOk : Bool) (api : Option (List Char)) :
    Option (List Char) × List (List Char) :=
  if exportOk then
    let fs1 := fsCreate fs chunk_path
    match api with
    | some t => (some t, fsRemove fs1 chunk_path)
    | none => (none, fsRemove fs1 chunk_path)
  else
    (none, fsRemove fs chunk_path)

/-- The file-system effect of `whisper_transcribe(audio_file_path)`
(transcribe_v2.1.py): an oversize file is re-encoded to
`*_compressed.wav` and the temporary is removed only on the success
path, guarded by `endswith("_compressed.wav")`. -/
def whisper_transcribe_fs (fs : List (List Char)) (path : List Char)
    (file_size : Nat) (compressOk : Bool) (api : Option (List Char)) :
    Option (List Char) × List (List Char) :=
  if file_size > MAX_FILE_SIZE then
    let temp := compressedName path
    if compressOk then
      let fs1 := fsCreate fs temp
      match api with
      | some t =>
        if suffixOfB "_compressed.wav".toList temp then
          (some t, fsRemove fs1 temp)
        else (some t, fs1)
      | none => (none, fs1)
    else (none, fs)
  else
    match api with
    | some t =>
      if suffixOfB "_compressed.wav".toList path then
        (some t, fsRemove fs path)
      else (some t, fs)
    | none => (none, fs)

/-- C8 counterexample: a 26MB `rec.wav` is compressed successfully to
`rec_compressed.wav`, then the transcription call fails.  The claim
says the transient re-encoding no longer exists on every failure path;
the code's `except` branch skips the cleanup and the file survives. -/
theorem C8_counterexample :
    (whisper_transcribe_fs [] "rec.wav".toList (26 * 1024 * 1024) true none).2
        = ["rec_compressed.wav".toList] ∧
      "rec_compressed.wav".toList ∈
        (whisper_transcribe_fs [] "rec.wav".toList
          (26 * 1024 * 1024) true none).2 := by
  constructor
  · rfl
  · decide

lemma not_mem_fsRemove (fs : List (List Char)) (p : List Char) :
    p ∉ fsRemove fs p := by
  intro h
  have := List.of_mem_filter h
  simp at this

/-- C8 (amended): youtube.py's `transcribe_chunk` deletes the transient
chunk export on the success path and on every failure path (its
`finally` block); `whisper_transcribe`'s compressed re-encoding is
deleted on the success path, but it survives the failure path
(transcription error after a successful compression). -/
theorem C8_cleanup_amended (fs : List (List Char)) (chunk_path : List Char)
    (exportOk : Bool) (api : Option (List Char)) (path : List Char)
    (file_size : Nat) (t : List Char) :
    chunk_path ∉ (transcribe_chunk fs chunk_path exportOk api).2 ∧
    (MAX_FILE_SIZE < file_size →
      suffixOfB "_compressed.wav".toList (compressedName path) = true →
      compressedName path ∉
        (whisper_transcribe_fs fs path file_size true (some t)).2) := by
  constructor
  · rcases exportOk with _ | _
    · exact not_mem_fsRemove fs chunk_path
    · cases api with
      | none => exact not_mem_fsRemove _ chunk_path
      | some s => exact not_mem_fsRemove _ chunk_path
  · intro hsize hsuffix
    simp only [whisper_transcribe_fs, if_pos hsize, if_pos rfl, hsuffix,
      if_true]
    exact not_mem_fsRemove _ (compressedName path)

/-- Witness for `C8_cleanup_amended` at concrete inputs. -/
theorem C8_witness :
    "tmp.wav".toList ∉
        (transcribe_chunk [] "tmp.wav".toList true (some "hi".toList)).2 ∧
      compressedName "rec.wav".toList ∉
        (whisper_transcribe_fs [] "rec.wav".toList (26 * 1024 * 1024) true
          (some "hi".toList)).2 :=
  ⟨(C8_cleanup_amended [] "tmp.wav".toList true (some "hi".toList)
      "rec.wav".toList (26 * 1024 * 1024) "hi".toList).1,
    (C8_cleanup_amended [] "tmp.wav".toList true (some "hi".toList)
      "rec.wav".toList (26 * 1024 * 1024) "hi".toList).2 (by decide) (by decide)⟩

/-!  ## AggregationStore: `append_to_weekly_file` and
`append_to_subject_file` (transcribe_v2.1.py)

Both are modelled as pure content transformers: the date / month
strings computed from `datetime.now()` are parameters, the target
file's prior content is `Option (List Char)` (`none` = file absent),
and the returned value is the full rewritten file content. -/

/-- One decimal digit character. -/
def digitChar : Nat → Char
  | 0 => '0' | 1 => '1' | 2 => '2' | 3 => '3' | 4 => '4'
  | 5 => '5' | 6 => '6' | 7 => '7' | 8 => '8' | 9 => '9'
  | _ => '?'

/-- Decimal digits of `n`, most significant first; `fuel ≥ n` suffices. -/
def natDigitsAux : Nat → Nat → List Char
  | 0, _ => []
  | fuel + 1, n =>
    if n < 10 then [digitChar n]
    else natDigitsAux fuel (n / 10) ++ [digitChar (n % 10)]

/-- Python `str(n)` for a natural number. -/
def natRepr (n : Nat) : List Char := natDigitsAux (n + 1) n

lemma digitChar_isDigit (k : Nat) (hk : k < 10) : (digitChar k).isDigit = true := by
  interval_cases k <;> decide

lemma natDigitsAux_isDigit : ∀ fuel n, n ≤ fuel →
    ∀ c ∈ natDigitsAux fuel n, c.isDigit = true := by
  intro fuel
  induction fuel with
  | zero => intro n _ c hc; simp [natDigitsAux] at hc
  | succ f ih =>
    intro n hn c hc
    by_cases h10 : n < 10
    · simp only [natDigitsAux, if_pos h10, List.mem_singleton] at hc
      exact hc ▸ digitChar_isDigit n h10
    · simp only [natDigitsAux, if_neg h10, List.mem_append,
        List.mem_singleton] at hc
      rcases hc with hc | hc
      · exact ih (n / 10) (by omega) c hc
      · exact hc ▸ digitChar_isDigit (n % 10) (by omega)

lemma natRepr_isDigit (n : Nat) : ∀ c ∈ natRepr n, c.isDigit = true :=
  natDigitsAux_isDigit (n + 1) n (by omega)

lemma natRepr_no_newline (n : Nat) : '\n' ∉ natRepr n := by
  intro h
  have := natRepr_isDigit n '\n' h
  simp [Char.isDigit] at this

/-- Python `f.readlines()`: split after every newline, keeping the
newline with its line; no empty trailing element. -/
def readlines : List Char → List (List Char)
  | [] => []
  | c :: t =>
    if c = '\n' then ['\n'] :: readlines t
    else
      match readlines t with
      | [] => [[c]]
      | l :: ls => (c :: l) :: ls

/-- Python `str.splitlines()` restricted to `'\n'` boundaries (the only
line boundary these scripts ever write): split on every newline,
dropping the separators, no empty trailing element
(`"".splitlines() == []`, `"a\n".splitlines() == ["a"]`). -/
def splitlinesPy : List Char → List (List Char)
  | [] => []
  | c :: t =>
    if c = '\n' then [] :: splitlinesPy t
    else
      match splitlinesPy t with
      | [] => [[c]]
      | l :: ls => (c :: l) :: ls

lemma readlines_eq_nil_iff (l : List Char) : readlines l = [] ↔ l = [] := by
  cases l with
  | nil => simp [readlines]
  | cons c t =>
    simp only [readlines]
    by_cases hc : c = '\n'
    · simp [hc]
    · simp only [if_neg hc]
      cases readlines t <;> simp

lemma readlines_append (a : List Char) (ha : '\n' ∉ a) (r : List Char) :
    readlines (a ++ '\n' :: r) = (a ++ ['\n']) :: readlines r := by
  induction a with
  | nil => simp [readlines]
  | cons c t ih =>
    have hc : c ≠ '\n' := fun h => ha (h ▸ List.mem_cons_self c t)
    have ht : '\n' ∉ t := fun h => ha (List.mem_cons_of_mem c h)
    simp only [List.cons_append, readlines, if_neg hc]
    rw [List.append_eq, ih ht]

lemma flatten_readlines : ∀ l : List Char, (readlines l).flatten = l := by
  intro l
  induction l with
  | nil => simp [readlines]
  | cons c t ih =>
    by_cases hc : c = '\n'
    · simp [readlines, hc, ih]
    · simp only [readlines, if_neg hc]
      cases hr : readlines t with
      | nil =>
        have := (readlines_eq_nil_iff t).1 hr
        simp [this]
      | cons l0 ls =>
        rw [hr] at ih
        simp only [List.flatten_cons, List.cons_append]
        rw [← List.flatten_cons, ih]

lemma splitlinesPy_append (a : List Char) (ha : '\n' ∉ a) (r : List Char) :
    splitlinesPy (a ++ '\n' :: r) = a :: splitlinesPy r := by
  induction a with
  | nil => simp [splitlinesPy]
  | cons c t ih =>
    have hc : c ≠ '\n' := fun h => ha (h ▸ List.mem_cons_self c t)
    have ht : '\n' ∉ t := fun h => ha (List.mem_cons_of_mem c h)
    simp only [List.cons_append, splitlinesPy, if_neg hc]
    rw [List.append_eq, ih ht]

lemma stripL_cons_space (c : Char) (t : List Char) (hc : isPySpace c = true) :
    stripL (c :: t) = stripL t := by
  simp [stripL, lstripL, hc]

lemma stripL_append_nl (x : List Char) : stripL (x ++ ['\n']) = stripL x := by
  induction x with
  | nil => decide
  | cons c t ih =>
    by_cases hc : isPySpace c = true
    · rw [List.cons_append, stripL_cons_space c _ hc, stripL_cons_space c t hc]
      exact ih
    · have hc' : isPySpace c = false := by simpa using hc
      simp only [stripL, lstripL, List.cons_append, List.dropWhile_cons, hc',
        Bool.false_eq_true, if_false, List.reverse_cons]
      have h1 : (t ++ ['\n']).reverse ++ [c] = '\n' :: (t.reverse ++ [c]) := by
        simp
      rw [h1, List.dropWhile_cons]
      norm_num [isPySpace]

/-- `f"Total words: {total_words}\n\n{final_text}"` where
`total_words = len(final_text.split())`. -/
def mkTotalWords (final_text : List Char) : List Char :=
  "Total words: ".toList ++ natRepr (splitWs final_text).length ++
    '\n' :: '\n' :: final_text

/-- `append_to_weekly_file(text)` from transcribe_v2.1.py as a content
transformer; `header_line` is the `[{current_date_str}]` date header
computed from `datetime.now()`, `old` the target file's prior content
(`none` = `FileNotFoundError`).  Reads the file's lines, drops the
first two (assumed `Total words` header and blank), removes every line
whose stripped form equals the header line, prepends the new block, and
rewrites the whole file with a recomputed word count. -/
def append_to_weekly_file (header_line text : List Char)
    (old : Option (List Char)) : List Char :=
  let lines := match old with | none => [] | some c => readlines c
  let existing_lines := if 2 < lines.length then lines.drop 2 else []
  let filtered_lines := existing_lines.filter fun l => !(stripL l == header_line)
  let existing_content := filtered_lines.flatten
  let new_block := header_line ++ '\n' :: (text ++ "\n\n".toList)
  mkTotalWords (new_block ++ existing_content)

/-- C1 counterexample: two same-day runs with header
`[Friday, October 10, 2025]` and text `hello`.  The second run's file
is not state-equivalent to the first: the prior entry's header line was
removed but its body `hello` was kept, so the body now appears twice
(once under the fresh header, once as orphaned text below it). -/
theorem C1_counterexample :
    append_to_weekly_file "[Friday, October 10, 2025]".toList "hello".toList
        (some (append_to_weekly_file "[Friday, October 10, 2025]".toList
          "hello".toList none))
      = ("Total words: 6\n\n[Friday, October 10, 2025]\n" ++
          "hello\n\nhello\n\n").toList ∧
    append_to_weekly_file "[Friday, October 10, 2025]".toList "hello".toList
        (some (append_to_weekly_file "[Friday, October 10, 2025]".toList
          "hello".toList none))
      ≠ append_to_weekly_file "[Friday, October 10, 2025]".toList
          "hello".toList none := by
  constructor
  · decide
  · decide

/-- C1 (amended): a first run on an absent file writes the fresh block;
a second same-day run removes the prior matching header *line* but
keeps the prior entry's body, so the file becomes the fresh block
followed by the previous body — the text is duplicated without a
header, and the two states are not equivalent.  Lines of other entries
(here: any line not stripping to the header) are preserved verbatim and
in order. -/
theorem C1_weekly_amended (hdr text : List Char)
    (hnl : '\n' ∉ hdr) (hstrip : stripL hdr = hdr)
    (hbody : ∀ l ∈ readlines (text ++ "\n\n".toList), stripL l ≠ hdr) :
    append_to_weekly_file hdr text none =
      mkTotalWords (hdr ++ '\n' :: (text ++ "\n\n".toList)) ∧
    append_to_weekly_file hdr text
        (some (append_to_weekly_file hdr text none)) =
      mkTotalWords ((hdr ++ '\n' :: (text ++ "\n\n".toList)) ++
        (text ++ "\n\n".toList)) := by
  have h1 : append_to_weekly_file hdr text none =
      mkTotalWords (hdr ++ '\n' :: (text ++ "\n\n".toList)) := by
    simp [append_to_weekly_file]
  refine ⟨h1, ?_⟩
  rw [h1]
  set blk := hdr ++ '\n' :: (text ++ "\n\n".toList) with hblk_def
  have hpre : '\n' ∉ "Total words: ".toList ++ natRepr (splitWs blk).length := by
    intro h
    rcases List.mem_append.1 h with h | h
    · simp at h
    · exact natRepr_no_newline _ h
  have hshape : mkTotalWords blk =
      ("Total words: ".toList ++ natRepr (splitWs blk).length) ++
        '\n' :: ('\n' :: blk) := by
    simp [mkTotalWords]
  have hrl1 : readlines (mkTotalWords blk) =
      (("Total words: ".toList ++ natRepr (splitWs blk).length) ++ ['\n']) ::
        ['\n'] :: readlines blk := by
    rw [hshape, readlines_append _ hpre]
    simp [readlines]
  have hrl2 : readlines blk =
      (hdr ++ ['\n']) :: readlines (text ++ "\n\n".toList) := by
    rw [hblk_def]
    exact readlines_append hdr hnl (text ++ "\n\n".toList)
  have hne : readlines blk ≠ [] := by rw [hrl2]; simp
  have hlen : 2 < (readlines (mkTotalWords blk)).length := by
    rw [hrl1]
    simp only [List.length_cons]
    have := List.length_pos.2 hne
    omega
  simp only [append_to_weekly_file]
  rw [if_pos hlen, hrl1, List.drop_succ_cons, List.drop_succ_cons,
    List.drop_zero, hrl2]
  rw [List.filter_cons_of_neg (by simp [stripL_append_nl, hstrip])]
  rw [List.filter_eq_self.2 (by
    intro l hl
    simpa using hbody l hl)]
  rw [flatten_readlines]

/-- Witness for `C1_weekly_amended` at a concrete input. -/
theorem C1_witness :
    append_to_weekly_file "[Friday, October 10, 2025]".toList "hi there".toList
        none
      = mkTotalWords ("[Friday, October 10, 2025]".toList ++
          '\n' :: ("hi there".toList ++ "\n\n".toList)) :=
  (C1_weekly_amended "[Friday, October 10, 2025]".toList "hi there".toList
    (by decide) (by decide) (by decide)).1

/-- Python `int()` on a decimal digit string. -/
def digitsToNat (l : List Char) : Nat :=
  l.foldl (fun acc c => 10 * acc + (c.toNat - 48)) 0

/-- The regex `^\[Month: (\w+) \| Count: (\d+)\]$` applied to one line:
returns the captured month name and parsed count.  `\w+` / `\d+` are
maximal-munch here, which coincides with the regex's backtracking
semantics because the characters that follow them in the pattern
(a space and `]`) are not word / digit characters. -/
def parseMonthHeader (l : List Char) : Option (List Char × Nat) :=
  if prefixOfB "[Month: ".toList l then
    let rest := l.drop 8
    let month := rest.takeWhile fun c => isWordChar c
    let rest2 := rest.drop month.length
    if month.isEmpty then none
    else if prefixOfB " | Count: ".toList rest2 then
      let rest3 := rest2.drop 10
      let digits := rest3.takeWhile fun c => c.isDigit
      let rest4 := rest3.drop digits.length
      if digits.isEmpty then none
      else if rest4 = [']'] then some (month, digitsToNat digits)
      else none
    else none
  else none

example : parseMonthHeader "[Month: May | Count: 3]".toList
    = some ("May".toList, 3) := by decide

example : parseMonthHeader "[Month: May | Count: 3] ".toList = none := by decide

/-- `f"[Month: {current_month} | Count: {count}]\n{text}\n\n"`. -/
def mkMonthBlock (current_month : List Char) (count : Nat) (text : List Char) :
    List Char :=
  "[Month: ".toList ++ current_month ++ " | Count: ".toList ++
    natRepr count ++ "]".toList ++ '\n' :: (text ++ "\n\n".toList)

/-- `append_to_subject_file(text, subject)` from transcribe_v2.1.py as a
content transformer; `current_month` is `datetime.now().strftime("%B")`,
`old` the subject file's prior content (`none` = file absent).  If the
first line is a month header for the current month, its count is reused
and the header line is removed (`"\n".join(lines[1:]).lstrip()`);
otherwise the count starts at 0 and the content is untouched.  The new
block is prepended and the whole file rewritten. -/
def append_to_subject_file (current_month text : List Char)
    (old : Option (List Char)) : List Char :=
  let content := match old with | none => [] | some c => c
  let lines := splitlinesPy content
  let state :=
    match lines with
    | [] => (0, content)
    | l0 :: rest =>
      match parseMonthHeader l0 with
      | some (m, cnt) =>
        if lowerL m = lowerL current_month then (cnt, lstripL (joinNl rest))
        else (0, content)
      | none => (0, content)
  mkMonthBlock current_month (state.1 + 1) text ++ state.2

/-- The first line of `content` is not a month header for
`current_month` (file empty, unparsable first line, or another month). -/
def monthHeaderMissB (current_month content : List Char) : Bool :=
  match splitlinesPy content with
  | [] => true
  | l0 :: _ =>
    match parseMonthHeader l0 with
    | none => true
    | some (m, _) => lowerL m != lowerL current_month

/-- The remainder reconstruction `"\n".join(x.splitlines())` performs on
an all-`'\n'` text: it drops a final trailing newline, if any. -/
def dropTrailNl (x : List Char) : List Char :=
  if x.getLast? = some '\n' then x.dropLast else x

lemma splitlinesPy_eq_nil_iff (l : List Char) : splitlinesPy l = [] ↔ l = [] := by
  cases l with
  | nil => simp [splitlinesPy]
  | cons c t =>
    simp only [splitlinesPy]
    by_cases hc : c = '\n'
    · simp [hc]
    · simp only [if_neg hc]
      cases splitlinesPy t <;> simp

lemma joinNl_cons_cons (a : List Char) (l : List Char) (ls : List (List Char)) :
    joinNl ((a ++ l) :: ls) = a ++ joinNl (l :: ls) := by
  cases ls with
  | nil => simp [joinNl]
  | cons b ls' => simp [joinNl]

lemma dropTrailNl_cons (c : Char) (t : List Char) (h : t ≠ [] ∨ c ≠ '\n') :
    dropTrailNl (c :: t) = c :: dropTrailNl t := by
  cases t with
  | nil =>
    rcases h with h | h
    · exact absurd rfl h
    · simp [dropTrailNl, h]
  | cons b t' =>
    simp only [dropTrailNl, List.getLast?_cons_cons]
    by_cases hb : (b :: t').getLast? = some '\n'
    · simp [hb, List.dropLast_cons₂]
    · simp [hb]

lemma joinNl_splitlinesPy : ∀ x : List Char, joinNl (splitlinesPy x) = dropTrailNl x := by
  intro x
  induction x with
  | nil => simp [splitlinesPy, joinNl, dropTrailNl]
  | cons c t ih =>
    by_cases hc : c = '\n'
    · subst hc
      have hsl : splitlinesPy ('\n' :: t) = [] :: splitlinesPy t := by
        simp [splitlinesPy]
      rw [hsl]
      cases hst : splitlinesPy t with
      | nil =>
        have ht : t = [] := (splitlinesPy_eq_nil_iff t).1 hst
        subst ht
        simp [joinNl, dropTrailNl]
      | cons l ls =>
        have ht : t ≠ [] := by
          intro h
          subst h
          simp [splitlinesPy] at hst
        have hj : joinNl ([] :: l :: ls) = '\n' :: joinNl (l :: ls) := by
          simp [joinNl]
        rw [hj, ← hst, ih, dropTrailNl_cons '\n' t (Or.inl ht)]
    · have hsl : splitlinesPy (c :: t) =
          match splitlinesPy t with
          | [] => [[c]]
          | l :: ls => (c :: l) :: ls := by
        simp [splitlinesPy, hc]
      rw [hsl]
      cases hst : splitlinesPy t with
      | nil =>
        have ht : t = [] := (splitlinesPy_eq_nil_iff t).1 hst
        subst ht
        simp [joinNl, dropTrailNl, hc]
      | cons l ls =>
        have ht : t ≠ [] := by
          intro h
          subst h
          simp [splitlinesPy] at hst
        show joinNl ((c :: l) :: ls) = dropTrailNl (c :: t)
        have h1 : joinNl ((c :: l) :: ls) = c :: joinNl (l :: ls) := by
          have h2 := joinNl_cons_cons [c] l ls
          simpa using h2
        rw [h1, ← hst, ih, dropTrailNl_cons c t (Or.inl ht)]

/-- C5 counterexample: same-month second call on
`"[Month: May | Count: 1]\nhello\n\n"`.  The count increments to 2 and
the new block is prepended, but the remainder is not preserved verbatim
after removing the header line: rejoining the split lines drops the
file's final newline (`hello\n\n` becomes `hello\n`). -/
theorem C5_counterexample :
    append_to_subject_file "May".toList "bye".toList
        (some "[Month: May | Count: 1]\nhello\n\n".toList)
      = "[Month: May | Count: 2]\nbye\n\nhello\n".toList ∧
    "[Month: May | Count: 2]\nbye\n\nhello\n".toList
      ≠ ("[Month: May | Count: 2]\nbye\n\n".toList ++ "hello\n\n".toList) := by
  constructor
  · decide
  · decide

/-- C5 (amended): when the first line is a month header whose month
matches (case-insensitively), the call reuses its count `c`, prepends a
block headed `[Month: month | Count: c+1]`, and keeps only a normalized
remainder: the header line is removed and, in addition, the remainder's
final trailing newline is dropped and its leading whitespace stripped
(`"\n".join(lines[1:]).lstrip()`).  When the header is absent,
unparsable, or for another month, the count resets to 1 and the prior
content is preserved verbatim; on an absent file the block stands alone. -/
theorem C5_append_subject_amended :
    (∀ month text l0 rest m c, '\n' ∉ l0 →
      parseMonthHeader l0 = some (m, c) → lowerL m = lowerL month →
      append_to_subject_file month text (some (l0 ++ '\n' :: rest)) =
        mkMonthBlock month (c + 1) text ++ lstripL (dropTrailNl rest)) ∧
    (∀ month text content, monthHeaderMissB month content = true →
      append_to_subject_file month text (some content) =
        mkMonthBlock month 1 text ++ content) ∧
    (∀ month text, append_to_subject_file month text none =
      mkMonthBlock month 1 text) := by
  refine ⟨?_, ?_, ?_⟩
  · intro month text l0 rest m c hnl hparse hm
    simp only [append_to_subject_file, splitlinesPy_append l0 hnl, hparse,
      if_pos hm, joinNl_splitlinesPy]
  · intro month text content hmiss
    simp only [append_to_subject_file]
    cases hsl : splitlinesPy content with
    | nil => simp
    | cons l0 rest =>
      cases hp : parseMonthHeader l0 with
      | none => simp [hp]
      | some mc =>
        obtain ⟨m, cnt⟩ := mc
        have hne : lowerL m ≠ lowerL month := by
          simp only [monthHeaderMissB, hsl, hp, bne_iff_ne, ne_eq] at hmiss
          exact hmiss
        simp [hp, hne]
  · intro month text
    simp [append_to_subject_file, splitlinesPy]

/-- Witness for `C5_append_subject_amended` at concrete inputs. -/
theorem C5_witness :
    append_to_subject_file "May".toList "new entry".toList
        (some ("[Month: May | Count: 4]".toList ++ '\n' :: "old\n\n".toList))
      = mkMonthBlock "May".toList 5 "new entry".toList ++
          lstripL (dropTrailNl "old\n\n".toList) ∧
    append_to_subject_file "June".toList "x".toList
        (some "[Month: May | Count: 4]\nold\n\n".toList)
      = mkMonthBlock "June".toList 1 "x".toList ++
          "[Month: May | Count: 4]\nold\n\n".toList :=
  ⟨C5_append_subject_amended.1 "May".toList "new entry".toList
      "[Month: May | Count: 4]".toList "old\n\n".toList "May".toList 4
      (by decide) (by decide) (by decide),
    C5_append_subject_amended.2.1 "June".toList "x".toList
      "[Month: May | Count: 4]\nold\n\n".toList (by decide)⟩

/-- C6 counterexample: an existing weekly file holding the single
unparsable line `legacy`.  The claim says prior content is preserved
verbatim below the new entry; the code treats any file with at most two
lines as empty, and `legacy` occurs nowhere in the rewritten file. -/
theorem C6_counterexample :
    append_to_weekly_file "[Friday, October 10, 2025]".toList "hi".toList
        (some "legacy".toList)
      = "Total words: 5\n\n[Friday, October 10, 2025]\nhi\n\n".toList ∧
    infixOfB "legacy".toList
        (append_to_weekly_file "[Friday, October 10, 2025]".toList
          "hi".toList (some "legacy".toList)) = false := by
  constructor
  · decide
  · decide

/-- C6 (amended): `append_to_subject_file` does treat an unparsable (or
other-month) first line as if the file were absent and preserves the
prior content verbatim below the new block; `append_to_weekly_file`
does not: it unconditionally assumes the first two lines are its own
total-words header and blank separator, so a corrupt file of at most
two lines is treated as empty and its content discarded (and a longer
corrupt file loses its first two lines). -/
theorem C6_corrupt_header_amended :
    (∀ month text content, monthHeaderMissB month content = true →
      append_to_subject_file month text (some content) =
        mkMonthBlock month 1 text ++ content) ∧
    (∀ hdr text old, (readlines old).length ≤ 2 →
      append_to_weekly_file hdr text (some old) =
        append_to_weekly_file hdr text none) := by
  constructor
  · intro month text content hmiss
    simp only [append_to_subject_file]
    cases hsl : splitlinesPy content with
    | nil => simp
    | cons l0 rest =>
      cases hp : parseMonthHeader l0 with
      | none => simp [hp]
      | some mc =>
        obtain ⟨m, cnt⟩ := mc
        have hne : lowerL m ≠ lowerL month := by
          simp only [monthHeaderMissB, hsl, hp, bne_iff_ne, ne_eq] at hmiss
          exact hmiss
        simp [hp, hne]
  · intro hdr text old hlen
    simp [append_to_weekly_file, Nat.not_lt.2 hlen]

/-- Witness for `C6_corrupt_header_amended` at concrete inputs. -/
theorem C6_witness :
    append_to_subject_file "May".toList "txt".toList
        (some "not a header\nstuff\n".toList)
      = mkMonthBlock "May".toList 1 "txt".toList ++
          "not a header\nstuff\n".toList ∧
    append_to_weekly_file "[Friday, October 10, 2025]".toList "txt".toList
        (some "corrupt\n".toList)
      = append_to_weekly_file "[Friday, October 10, 2025]".toList
          "txt".toList none :=
  ⟨C6_corrupt_header_amended.1 "May".toList "txt".toList
      "not a header\nstuff\n".toList (by decide),
    C6_corrupt_header_amended.2 "[Friday, October 10, 2025]".toList
      "txt".toList "corrupt\n".toList (by decide)⟩

/-!  ## TextNormalizer: `basic_cleaning` (transcribe_v2.1.py)

The two regexes are embedded directly:
`re.compile(r"\b(um|uh|like|you know|i mean)\b", re.IGNORECASE).sub("", line)`
as a left-to-right scan with word-boundary checks, and
`re.sub(r"\s+", " ", line)` as whitespace normalisation followed by
run-compression.  The GPT client is `None` (no `process_with_gpt`). -/

/-- `line[0].upper() + line[1:]`. -/
def capFirst : List Char → List Char
  | [] => []
  | c :: t => c.toUpper :: t

/-- Replace every whitespace character by a plain space. -/
def wsToSpace (l : List Char) : List Char :=
  l.map fun c => if isPySpace c then ' ' else c

/-- Compress runs of spaces to a single space. -/
def squeezeSpaces : List Char → List Char
  | [] => []
  | [c] => [c]
  | a :: b :: t =>
    if a = ' ' ∧ b = ' ' then squeezeSpaces (b :: t)
    else a :: squeezeSpaces (b :: t)

/-- `re.sub(r"\s+", " ", line)`. -/
def collapseWS (l : List Char) : List Char := squeezeSpaces (wsToSpace l)

/-- The alternation `um|uh|like|you know|i mean`, in pattern order. -/
def fillers : List (List Char) :=
  ["um".toList, "uh".toList, "like".toList, "you know".toList,
    "i mean".toList]

/-- `pat` (already lower-case) matches the start of `s` case-insensitively. -/
def ciPrefixOfB : List Char → List Char → Bool
  | [], _ => true
  | _ :: _, [] => false
  | a :: p, b :: t => a == b.toLower && ciPrefixOfB p t

/-- The `\b` after the alternation: end of string or a non-word char. -/
def boundaryAfter : List Char → Bool
  | [] => true
  | c :: _ => !isWordChar c

/-- Try the alternatives in pattern order at the current position
(which is known to sit at a `\b`); return the matched length. -/
def tryFillerAux : List (List Char) → List Char → Option Nat
  | [], _ => none
  | f :: fs, s =>
    if ciPrefixOfB f s && boundaryAfter (s.drop f.length) then some f.length
    else tryFillerAux fs s

/-- First filler matching at this position, with its length. -/
def tryFiller (s : List Char) : Option Nat := tryFillerAux fillers s

/-- The scan of `filler_pattern.sub("", line)`.  `prevWord` records
whether the previous character is a word character (the `\b` before the
alternation holds iff it is not, every alternative starting with a word
character); every filler ends in a word character, so after a match the
flag is true.  `fuel ≥ s.length` suffices (each step consumes at least
one character). -/
def fillerSubF : Nat → Bool → List Char → List Char
  | 0, _, s => s
  | _ + 1, _, [] => []
  | fuel + 1, prevWord, c :: t =>
    if !prevWord then
      match tryFiller (c :: t) with
      | some k => fillerSubF fuel true (t.drop (k - 1))
      | none => c :: fillerSubF fuel (isWordChar c) t
    else c :: fillerSubF fuel (isWordChar c) t

/-- `filler_pattern.sub("", line)` starting with boundary state
`prevWord` (`false` at the start of a line). -/
def fillerSub (prevWord : Bool) (s : List Char) : List Char :=
  fillerSubF s.length prevWord s

/-- The per-line body of `basic_cleaning` for a stripped, non-blank
line: strip fillers, collapse whitespace, strip, then capitalize (after
the `"* "` marker for bullet lines). -/
def processLine (s : List Char) : List Char :=
  let line := stripL (collapseWS (fillerSub false s))
  if prefixOfB "* ".toList line then
    "* ".toList ++ capFirst (stripL (line.drop 2))
  else capFirst line

/-- The line loop of `basic_cleaning`: strip each line, drop blank
lines, process the rest. -/
def cleanLines : List (List Char) → List (List Char)
  | [] => []
  | l :: ls =>
    if stripL l = [] then cleanLines ls
    else processLine (stripL l) :: cleanLines ls

/-- One block of `basic_cleaning` with `client=None`:
`"\n".join(cleaned_lines)` over `block.split("\n")`. -/
def cleanBlock (block : List Char) : List Char :=
  joinNl (cleanLines (splitNl block))

/-- `basic_cleaning(final_paragraph_blocks)` with `client=None`. -/
def basic_cleaning (final_paragraph_blocks : List (List Char)) :
    List (List Char) :=
  final_paragraph_blocks.map cleanBlock

example : cleanBlock "um so today I learned about neurons".toList
    = "So today I learned about neurons".toList := by decide

example : cleanBlock "you you know know".toList = "You know".toList := by
  decide

example : cleanBlock (cleanBlock "you you know know".toList) = [] := by decide

example : cleanBlock "um\nhi".toList = "\nHi".toList := by decide

example : cleanBlock "\nhi".toList = "Hi".toList := by decide

/-- C4 counterexample: on `"you you know know"` the first pass removes
the inner `"you know"` and capitalizes, yielding `"You know"` — which
the second pass removes entirely (the first removal created a new
filler occurrence), yielding the empty paragraph. `clean` is not
idempotent. -/
theorem C4_counterexample :
    basic_cleaning ["you you know know".toList] = ["You know".toList] ∧
    basic_cleaning (basic_cleaning ["you you know know".toList]) = [[]] ∧
    basic_cleaning (basic_cleaning ["you you know know".toList])
      ≠ basic_cleaning ["you you know know".toList] := by
  refine ⟨by decide, by decide, by decide⟩

/-- Capitalization is already stable on the line (bullet lines: on the
content after the marker). -/
def capStableB (l : List Char) : Bool :=
  if prefixOfB "* ".toList l then capFirst (stripL (l.drop 2)) == l.drop 2
  else capFirst l == l

/-- A line the second cleaning pass maps to itself: non-empty,
newline-free, already stripped, no filler-pattern match, whitespace
already collapsed, capitalization stable. -/
def lineStableB (l : List Char) : Bool :=
  decide (l ≠ []) && decide ('\n' ∉ l) && (stripL l == l) &&
    (fillerSub false l == l) && (collapseWS l == l) && capStableB l

lemma bullet_shape (l : List Char) (h : prefixOfB "* ".toList l = true) :
    l = '*' :: ' ' :: l.drop 2 := by
  match l with
  | [] => simp [prefixOfB] at h
  | [c] => simp [prefixOfB] at h
  | c1 :: c2 :: rest =>
    have h1 : '*' = c1 ∧ ' ' = c2 := by
      simpa [prefixOfB, Bool.and_eq_true, beq_iff_eq, and_assoc] using h
    simp [← h1.1, ← h1.2]

lemma processLine_stable (l : List Char) (h : lineStableB l = true) :
    processLine l = l := by
  simp only [lineStableB, Bool.and_eq_true, beq_iff_eq,
    decide_eq_true_eq] at h
  obtain ⟨⟨⟨⟨⟨hne, hnl⟩, hstrip⟩, hfill⟩, hcoll⟩, hcap⟩ := h
  simp only [processLine, hfill, hcoll, hstrip]
  by_cases hb : prefixOfB "* ".toList l = true
  · rw [if_pos hb]
    simp only [capStableB, if_pos hb, beq_iff_eq] at hcap
    rw [hcap]
    exact (bullet_shape l hb).symm
  · rw [if_neg hb]
    simp only [capStableB, if_neg hb, beq_iff_eq] at hcap
    exact hcap

lemma cleanLines_stable (L : List (List Char))
    (h : ∀ l ∈ L, lineStableB l = true) : cleanLines L = L := by
  induction L with
  | nil => rfl
  | cons l ls ih =>
    have hl := h l (by simp)
    have hs : stripL l = l := by
      simp only [lineStableB, Bool.and_eq_true, beq_iff_eq] at hl
      exact hl.1.1.1.2
    have hne : l ≠ [] := by
      simp only [lineStableB, Bool.and_eq_true, decide_eq_true_eq] at hl
      exact hl.1.1.1.1.1
    simp only [cleanLines, hs, if_neg hne]
    rw [processLine_stable l hl, ih (fun x hx => h x (by simp [hx]))]

lemma splitNlAux_app (a : List Char) (ha : '\n' ∉ a) :
    ∀ (cur r : List Char),
      splitNlAux cur (a ++ r) = splitNlAux (a.reverse ++ cur) r := by
  induction a with
  | nil => intro cur r; simp
  | cons c t ih =>
    intro cur r
    have hc : c ≠ '\n' := fun h => ha (h ▸ List.mem_cons_self c t)
    have ht : '\n' ∉ t := fun h => ha (List.mem_cons_of_mem c h)
    simp only [List.cons_append, splitNlAux, if_neg hc]
    rw [List.append_eq, ih ht (c :: cur) r]
    congr 1
    simp

lemma splitNl_joinNl : ∀ L : List (List Char), L ≠ [] →
    (∀ l ∈ L, '\n' ∉ l) → splitNl (joinNl L) = L := by
  intro L
  induction L with
  | nil => intro h; exact absurd rfl h
  | cons s t ih =>
    intro _ hmem
    have hs : '\n' ∉ s := hmem s (by simp)
    cases t with
    | nil =>
      show splitNl s = [s]
      have h1 : splitNlAux [] (s ++ []) = splitNlAux (s.reverse ++ []) [] :=
        splitNlAux_app s hs [] []
      rw [List.append_nil, List.append_nil] at h1
      rw [splitNl, h1]
      simp [splitNlAux]
    | cons b t' =>
      show splitNl (s ++ '\n' :: joinNl (b :: t')) = s :: b :: t'
      rw [splitNl, splitNlAux_app s hs [] ('\n' :: joinNl (b :: t'))]
      have hstep : ∀ (cur R : List Char),
          splitNlAux cur ('\n' :: R) = cur.reverse :: splitNlAux [] R := by
        intro cur R
        simp [splitNlAux]
      rw [List.append_nil, hstep, List.reverse_reverse]
      congr 1
      exact ih (by simp) (fun l hl => hmem l (by simp [hl]))

/-- C4 (amended): `clean` is deterministic (it is a pure function of
its input) but not idempotent in general; a second pass is the
identity whenever the first pass's output lines are already fixed
points of the per-line normalisation — non-empty, stripped, no filler
match (the first pass can create new matches), collapsed whitespace,
stable capitalization.  (The condition is sufficient, not necessary:
a paragraph whose cleaned form is entirely empty is also a fixed
point.) -/
theorem C4_clean_amended (p : List Char)
    (h : ∀ l ∈ cleanLines (splitNl p), lineStableB l = true) :
    cleanBlock (cleanBlock p) = cleanBlock p := by
  by_cases hL : cleanLines (splitNl p) = []
  · have h1 : cleanBlock p = [] := by rw [cleanBlock, hL]; rfl
    rw [h1]
    decide
  · have hnl : ∀ l ∈ cleanLines (splitNl p), '\n' ∉ l := by
      intro l hl
      have := h l hl
      simp only [lineStableB, Bool.and_eq_true, decide_eq_true_eq] at this
      exact this.1.1.1.1.2
    conv_lhs => rw [cleanBlock, cleanBlock]
    rw [splitNl_joinNl _ hL hnl, cleanLines_stable _ h, cleanBlock]

/-- Witness for `C4_clean_amended` at a concrete input. -/
theorem C4_witness :
    cleanBlock (cleanBlock "Hello world\n* Nice one".toList)
      = cleanBlock "Hello world\n* Nice one".toList :=
  C4_clean_amended "Hello world\n* Nice one".toList (by decide)

lemma cleanLines_append (pre post : List (List Char)) :
    cleanLines (pre ++ post) = cleanLines pre ++ cleanLines post := by
  induction pre with
  | nil => rfl
  | cons l ls ih =>
    simp only [List.cons_append, cleanLines]
    by_cases hb : stripL l = []
    · simp [hb, ih]
    · simp [hb, ih]

/-- C10: in `basic_cleaning`'s line loop, an input line that strips to
nothing is dropped from the output entirely, while a non-blank line
whose filler-stripped, whitespace-collapsed, stripped form is empty
(e.g. a line consisting solely of filler words and whitespace) is still
emitted — as an empty output line, at its original position. -/
theorem C10_blank_vs_filler_lines (pre post : List (List Char))
    (l : List Char) :
    (stripL l = [] →
      cleanLines (pre ++ l :: post) = cleanLines (pre ++ post)) ∧
    (stripL l ≠ [] →
      stripL (collapseWS (fillerSub false (stripL l))) = [] →
      cleanLines (pre ++ l :: post) =
        cleanLines pre ++ [] :: cleanLines post) := by
  constructor
  · intro hb
    rw [cleanLines_append, cleanLines_append]
    congr 1
    simp [cleanLines, hb]
  · intro hnb hf
    rw [cleanLines_append]
    congr 1
    simp only [cleanLines, if_neg hnb]
    congr 1
    simp [processLine, hf, prefixOfB, capFirst]

/-- Witness for `C10_blank_vs_filler_lines` at concrete inputs: a
whitespace-only line vanishes; a filler-only line leaves a blank line. -/
theorem C10_witness :
    cleanLines (["a".toList] ++ "   ".toList :: ["b".toList])
        = cleanLines (["a".toList] ++ ["b".toList]) ∧
      cleanLines (["a".toList] ++ "um uh".toList :: ["b".toList])
        = cleanLines ["a".toList] ++ [] :: cleanLines ["b".toList] :=
  ⟨(C10_blank_vs_filler_lines ["a".toList] ["b".toList] "   ".toList).1
      (by decide),
    (C10_blank_vs_filler_lines ["a".toList] ["b".toList] "um uh".toList).2
      (by decide) (by decide)⟩
